import Mathlib

/-!
Verification of the Bellman-Ford negative-cycle engine from
`main.cpp` / `pathFindingBase.h` (repository `negative-cycles-in-a-graph`).

The C++ code is shallowly embedded: `double` weights become exact rationals
(`ℚ`), the `vector<double>` / `vector<int>` result arrays become Lean lists
of length `n` read through `getD` and written through `List.set`, and each
member function of `BellmanFordAlgorithm` becomes a pure state transformer
on `EngineState`.  The sentinels `INF = 1000000.0` and
`NEG_INF = -1000000.0` are kept as the finite rational constants the code
uses; they take part in arithmetic exactly as in the source.
-/

set_option maxRecDepth 40000

namespace NegCycle

attribute [local semireducible] Rat.add Rat.sub Rat.mul Rat.inv

/-- `const double INF = 1000000.0` from `pathFindingBase.h`. -/
def INF : ℚ := 1000000

/-- `const double NEG_INF = -1000000.0` from `pathFindingBase.h`. -/
def NEG_INF : ℚ := -1000000

/-- The dense graph of `pathFindingBase.h`: a node count and the weight
matrix `Matrix[u][v]`; entries equal to `INF` mean "no edge".  Node names
and the unused `Edges` member carry no algorithmic content and are
omitted. -/
structure Graph where
  n : ℕ
  Matrix : ℕ → ℕ → ℚ

/-- Build a `Graph` from a literal row-major weight matrix, as the test
drivers in `main.cpp` assign `graph.Matrix = { ... }`.  Out-of-range
lookups default to `INF` (never exercised by the algorithms, which index
only below `n`). -/
def mkGraph (rows : List (List ℚ)) : Graph :=
  ⟨rows.length, fun u v => (rows.getD u []).getD v INF⟩

/-- The result state owned by one `BellmanFordAlgorithm` instance:
`_shortestPath`, `_previousVertex` and `_solved`. -/
structure EngineState where
  shortestPath : List ℚ
  previousVertex : List ℤ
  solved : Bool
deriving DecidableEq

/-- Array read `_shortestPath[v]` (always performed with `v < n`, where the
`getD` default is irrelevant). -/
def EngineState.dist (st : EngineState) (v : ℕ) : ℚ :=
  st.shortestPath.getD v INF

/-- Array read `_previousVertex[v]`. -/
def EngineState.prev (st : EngineState) (v : ℕ) : ℤ :=
  st.previousVertex.getD v (-1)

/-- A freshly constructed `BellmanFordAlgorithm` after its first `resize`:
`_shortestPath` holds `n` copies of `INF`, `_previousVertex` holds `n`
copies of `-1`, `_solved` is `false`. -/
def initState (n : ℕ) : EngineState :=
  ⟨List.replicate n INF, List.replicate n (-1), false⟩

/-- The common entry sequence of every strategy: `resize` (a no-op when the
arrays already have length `n`, which is why re-running an instance keeps
its old arrays) followed by `_shortestPath[start] = 0`. -/
def startFrom (st : EngineState) (start : ℕ) : EngineState :=
  { st with shortestPath := st.shortestPath.set start 0 }

/-- All ordered pairs `(from, to)` in the order the doubly nested
`for (from …) for (to …)` loops visit them. -/
def pairs (n : ℕ) : List (ℕ × ℕ) :=
  (List.range n).flatMap fun u => (List.range n).map fun v => (u, v)

/-! ### Strategy A — `ContainsNegativeCycles` (main.cpp lines 31-81) -/

/-- One relaxation attempt of Strategy A for the ordered pair
`uv = (from, to)`; note the C++ code performs no `INF` ("edge not exists")
check here, the sentinel participates in the arithmetic. -/
def relaxA (g : Graph) (p : EngineState × Bool) (uv : ℕ × ℕ) : EngineState × Bool :=
  let st := p.1
  if st.dist uv.2 > st.dist uv.1 + g.Matrix uv.1 uv.2 then
    ({ st with
        shortestPath := st.shortestPath.set uv.2 (st.dist uv.1 + g.Matrix uv.1 uv.2),
        previousVertex := st.previousVertex.set uv.2 (uv.1 : ℤ) }, true)
  else p

/-- One full pass of Strategy A over all ordered pairs, with `updated`
reset to `false` at the start of the pass. -/
def passA (g : Graph) (st : EngineState) : EngineState × Bool :=
  (pairs g.n).foldl (relaxA g) (st, false)

/-- The `for (k = 0; k < verticesNumber - 1; k++)` loop of Strategy A with
its early exit: run at most `k` passes, stop as soon as a pass makes no
update; the returned flag is the value of `updated` after the loop. -/
def loopA (g : Graph) : ℕ → EngineState → EngineState × Bool
  | 0, st => (st, false)
  | k + 1, st =>
    let q := passA g st
    if q.2 = false then (q.1, false)
    else if k = 0 then (q.1, true)
    else loopA g k q.1

/-- The extra verification pass of Strategy A (lines 64-76): it performs no
writes and returns on the first pair that still admits improvement, so it
is exactly an existence check over all ordered pairs. -/
def improvableA (g : Graph) (st : EngineState) : Bool :=
  (pairs g.n).any fun uv =>
    decide (st.dist uv.2 > st.dist uv.1 + g.Matrix uv.1 uv.2)

/-- `ContainsNegativeCycles` run on an arbitrary incoming engine state
(modelling a call on an instance that may already hold results). -/
def ContainsNegativeCyclesRun (g : Graph) (start : ℕ) (st0 : EngineState) :
    Bool × EngineState :=
  let q := loopA g (g.n - 1) (startFrom st0 start)
  if q.2 && improvableA g q.1 then (true, q.1)
  else (false, { q.1 with solved := true })

/-- `ContainsNegativeCycles` on a fresh instance, as `runSimple` uses it. -/
def ContainsNegativeCycles (g : Graph) (start : ℕ) : Bool × EngineState :=
  ContainsNegativeCyclesRun g start (initState g.n)

/-! ### Strategy B — `ContainsNegativeCycles_Sedgewick` (lines 86-130) -/

/-- The C++ line `int new_distance = _shortestPath[from] + graph.Matrix[from][to];`
converts the `double` sum to `int`, truncating toward zero. -/
def ratTrunc (q : ℚ) : ℤ :=
  q.num.tdiv (q.den : ℤ)

/-- One relaxation attempt of Strategy B: skip `from` nodes not yet
reached (unless `from == start`), skip non-existent edges, and truncate
the candidate distance to an integer before comparing and storing. -/
def relaxB (g : Graph) (start : ℕ) (p : EngineState × Bool) (uv : ℕ × ℕ) :
    EngineState × Bool :=
  let st := p.1
  if uv.1 ≠ start ∧ st.prev uv.1 = -1 then p
  else if g.Matrix uv.1 uv.2 = INF then p
  else
    let nd : ℤ := ratTrunc (st.dist uv.1 + g.Matrix uv.1 uv.2)
    if st.dist uv.2 > (nd : ℚ) then
      ({ st with
          shortestPath := st.shortestPath.set uv.2 (nd : ℚ),
          previousVertex := st.previousVertex.set uv.2 (uv.1 : ℤ) }, true)
    else p

/-- One full pass of Strategy B. -/
def passB (g : Graph) (start : ℕ) (st : EngineState) : EngineState × Bool :=
  (pairs g.n).foldl (relaxB g start) (st, false)

/-- The `for (i = 0; i < n; ++i)` loop of Strategy B: exactly `k` passes,
no early exit; the returned flag is `updated` of the final pass (the
detection test `i == n - 1 && updated`). -/
def loopB (g : Graph) (start : ℕ) : ℕ → EngineState → EngineState × Bool
  | 0, st => (st, false)
  | k + 1, st =>
    let q := passB g start st
    if k = 0 then q else loopB g start k q.1

/-- `ContainsNegativeCycles_Sedgewick` on an arbitrary incoming state. -/
def ContainsNegativeCycles_SedgewickRun (g : Graph) (start : ℕ) (st0 : EngineState) :
    Bool × EngineState :=
  let q := loopB g start g.n (startFrom st0 start)
  if q.2 then (true, q.1) else (false, { q.1 with solved := true })

/-- `ContainsNegativeCycles_Sedgewick` on a fresh instance. -/
def ContainsNegativeCycles_Sedgewick (g : Graph) (start : ℕ) : Bool × EngineState :=
  ContainsNegativeCycles_SedgewickRun g start (initState g.n)

/-! ### Strategy C — `FindPathsAndNegativeCycles` (lines 190-249) -/

/-- One relaxation of the first phase of Strategy C (skips non-existent
edges, stores the exact sum). -/
def relaxC (g : Graph) (st : EngineState) (uv : ℕ × ℕ) : EngineState :=
  if g.Matrix uv.1 uv.2 = INF then st
  else if st.dist uv.2 > st.dist uv.1 + g.Matrix uv.1 uv.2 then
    { st with
        shortestPath := st.shortestPath.set uv.2 (st.dist uv.1 + g.Matrix uv.1 uv.2),
        previousVertex := st.previousVertex.set uv.2 (uv.1 : ℤ) }
  else st

/-- One full pass of the first phase of Strategy C. -/
def passC (g : Graph) (st : EngineState) : EngineState :=
  (pairs g.n).foldl (relaxC g) st

/-- The first `verticesNumber - 1` passes of Strategy C (no early exit). -/
def iterC (g : Graph) : ℕ → EngineState → EngineState
  | 0, st => st
  | k + 1, st => iterC g k (passC g st)

/-- One step of the second (detection) phase of Strategy C: any pair that
still admits improvement has its destination marked with the sentinels
`NEG_INF` / `-2` and raises the `negativeCycles` flag. -/
def relaxC2 (g : Graph) (p : EngineState × Bool) (uv : ℕ × ℕ) : EngineState × Bool :=
  let st := p.1
  if g.Matrix uv.1 uv.2 = INF then p
  else if st.dist uv.2 > st.dist uv.1 + g.Matrix uv.1 uv.2 then
    ({ st with
        shortestPath := st.shortestPath.set uv.2 NEG_INF,
        previousVertex := st.previousVertex.set uv.2 (-2) }, true)
  else p

/-- One full pass of the second phase of Strategy C. -/
def passC2 (g : Graph) (p : EngineState × Bool) : EngineState × Bool :=
  (pairs g.n).foldl (relaxC2 g) p

/-- The second `verticesNumber - 1` passes; the `negativeCycles` flag is
never reset between passes. -/
def iterC2 (g : Graph) : ℕ → EngineState × Bool → EngineState × Bool
  | 0, p => p
  | k + 1, p => iterC2 g k (passC2 g p)

/-- `FindPathsAndNegativeCycles` on an arbitrary incoming state; always
sets `_solved = true` and returns the `negativeCycles` flag. -/
def FindPathsAndNegativeCyclesRun (g : Graph) (start : ℕ) (st0 : EngineState) :
    Bool × EngineState :=
  let st1 := iterC g (g.n - 1) (startFrom st0 start)
  let q := iterC2 g (g.n - 1) (st1, false)
  (q.2, { q.1 with solved := true })

/-- `FindPathsAndNegativeCycles` on a fresh instance. -/
def FindPathsAndNegativeCycles (g : Graph) (start : ℕ) : Bool × EngineState :=
  FindPathsAndNegativeCyclesRun g start (initState g.n)

/-! ### Strategy D — `FindPathOnly` (lines 136-181)

The FIFO queue always holds exactly one sentinel `n`, pushed behind the
initial `start` and re-pushed every time it is popped (until the round
counter `z` exceeds `n`, which is the only way the loop ends — the queue
can never drain).  The loop is therefore equivalent to processing the
nodes in front of the sentinel as a batch, collecting the freshly pushed
nodes as the next batch, and counting one round per sentinel pop. -/

/-- Relaxation of one outgoing edge `(u, v)` of the popped node `u`; an
improved `v` is appended to the nodes pushed for the next round. -/
def relaxD (g : Graph) (u : ℕ) (p : EngineState × List ℕ) (v : ℕ) :
    EngineState × List ℕ :=
  let st := p.1
  if g.Matrix u v = INF then p
  else if st.dist v > st.dist u + g.Matrix u v then
    ({ st with
        shortestPath := st.shortestPath.set v (st.dist u + g.Matrix u v),
        previousVertex := st.previousVertex.set v (u : ℤ) }, p.2 ++ [v])
  else p

/-- Processing of one popped node `u`: the `for (to …)` loop of lines
164-179. -/
def processNode (g : Graph) (st : EngineState) (u : ℕ) : EngineState × List ℕ :=
  (List.range g.n).foldl (relaxD g u) (st, [])

/-- Process one batch (the queue contents in front of the sentinel) in
FIFO order, accumulating the pushes that form the next batch. -/
def processBatch (g : Graph) : List ℕ → EngineState → EngineState × List ℕ
  | [], st => (st, [])
  | u :: rest, st =>
    let q := processNode g st u
    let r := processBatch g rest q.1
    (r.1, q.2 ++ r.2)

/-- The outer loop of `FindPathOnly`, with `fuel = n + 2 - z` remaining
sentinel pops: processing stops (with `_solved = true`) exactly when the
post-incremented round counter `z` exceeds `n`. -/
def goD (g : Graph) : ℕ → List ℕ → EngineState → EngineState
  | 0, _, st => { st with solved := true }
  | fuel + 1, batch, st =>
    let q := processBatch g batch st
    goD g fuel q.2 q.1

/-- `FindPathOnly` on an arbitrary incoming state. -/
def FindPathOnlyRun (g : Graph) (start : ℕ) (st0 : EngineState) : EngineState :=
  goD g (g.n + 2) [start] (startFrom st0 start)

/-- `FindPathOnly` on a fresh instance. -/
def FindPathOnly (g : Graph) (start : ℕ) : EngineState :=
  FindPathOnlyRun g start (initState g.n)

/-! ### `ReconstructShortestPath` (lines 251-286) -/

/-- The predecessor walk
`for (at = finish; prev[at] != -1 && prev[at] != -2; at = prev[at])`.
The C++ loop has no iteration bound (it diverges on a cyclic predecessor
graph); the embedding carries explicit fuel, and every use in this file
supplies `n + 1`, enough for any acyclic predecessor chain. -/
def predWalk (st : EngineState) : ℕ → ℕ → List ℕ
  | 0, _ => []
  | fuel + 1, cur =>
    if st.prev cur ≠ -1 ∧ st.prev cur ≠ -2 then
      cur :: predWalk st fuel (st.prev cur).toNat
    else []

/-- `ReconstructShortestPath`: the console output is a collaborator
concern; the embedding returns the node sequence the C++ function
returns. -/
def ReconstructShortestPath (g : Graph) (st : EngineState) (start finish : ℕ) :
    List ℕ :=
  if st.solved then
    if st.dist finish = NEG_INF then []
    else ((predWalk st (g.n + 1) finish) ++ [start]).reverse
  else []

/-! ### Graph-theoretic vocabulary used to state the claims -/

/-- Edge existence as the code tests it: both endpoints in range and the
matrix entry different from the `INF` sentinel. -/
def edgeEx (g : Graph) (u v : ℕ) : Prop :=
  u < g.n ∧ v < g.n ∧ g.Matrix u v ≠ INF

instance (g : Graph) (u v : ℕ) : Decidable (edgeEx g u v) := by
  unfold edgeEx; infer_instance

/-- Reachability along existing edges. -/
def Reaches (g : Graph) (u v : ℕ) : Prop :=
  Relation.ReflTransGen (edgeEx g) u v

/-- `IsWalkFrom g u l w`: the node list `l` is a walk of existing edges
starting at `u` and ending at `w`. -/
def IsWalkFrom (g : Graph) : ℕ → List ℕ → ℕ → Prop
  | u, [], w => u = w
  | u, x :: l, w => edgeEx g u x ∧ IsWalkFrom g x l w

instance instDecIsWalkFrom (g : Graph) :
    (u : ℕ) → (l : List ℕ) → (w : ℕ) → Decidable (IsWalkFrom g u l w)
  | u, [], w => inferInstanceAs (Decidable (u = w))
  | _u, _x :: l, w =>
    haveI := instDecIsWalkFrom g _x l w
    inferInstanceAs (Decidable (_ ∧ _))

/-- Total weight of a walk. -/
def walkWeight (g : Graph) : ℕ → List ℕ → ℚ
  | _, [] => 0
  | u, x :: l => g.Matrix u x + walkWeight g x l

/-- The graph contains a directed cycle of existing edges whose weights
sum to a negative number. -/
def HasNegCycle (g : Graph) : Prop :=
  ∃ u l, l ≠ [] ∧ IsWalkFrom g u l u ∧ walkWeight g u l < 0

/-- Executable certificate that a potential `φ` makes every reduced edge
cost nonnegative — a checkable witness that the graph has no negative
cycle. -/
def reducedCostsOK (g : Graph) (φ : ℕ → ℚ) : Bool :=
  (pairs g.n).all fun uv =>
    decide (g.Matrix uv.1 uv.2 = INF ∨ 0 ≤ g.Matrix uv.1 uv.2 + φ uv.1 - φ uv.2)

/-! ### Relaxation-stability predicates (used for the re-run claim) -/

/-- No ordered pair (existing edge or not) admits a Strategy A
improvement. -/
abbrev FixA (g : Graph) (st : EngineState) : Prop :=
  ∀ u, u < g.n → ∀ v, v < g.n → ¬ st.dist v > st.dist u + g.Matrix u v

/-- No pair that Strategy B would relax (reached `from`, existing edge)
admits an improvement over the truncated candidate. -/
abbrev FixB (g : Graph) (start : ℕ) (st : EngineState) : Prop :=
  ∀ u, u < g.n → ∀ v, v < g.n →
    (u = start ∨ st.prev u ≠ -1) → g.Matrix u v ≠ INF →
      ¬ st.dist v > (ratTrunc (st.dist u + g.Matrix u v) : ℚ)

/-- No existing edge admits an exact improvement (the stability notion of
Strategies C and D). -/
abbrev FixC (g : Graph) (st : EngineState) : Prop :=
  ∀ u, u < g.n → ∀ v, v < g.n → g.Matrix u v ≠ INF →
    ¬ st.dist v > st.dist u + g.Matrix u v

/-- The result arrays have length `n` (established by `resize`, preserved
by every write). -/
def SizeOK (g : Graph) (st : EngineState) : Prop :=
  st.shortestPath.length = g.n ∧ st.previousVertex.length = g.n

/-- Reachability invariant of the guarded strategies B and D: a node with
a recorded predecessor has been reached from the source along existing
edges, and a node without one still holds its initial distance. -/
def ReachInv (g : Graph) (s : ℕ) (st : EngineState) : Prop :=
  ∀ v, (st.prev v ≠ -1 → Reaches g s v) ∧
    (st.prev v = -1 → st.dist v = if v = s then 0 else INF)

/-! ### Concrete graphs and states from `main.cpp` and for the claims -/

/-- The spec's 5-node currency graph (`runAllNoNegativeCyclesTests`, first
scenario): USD CHF YEN GBP CNY, no negative cycle. -/
def g5 : Graph := mkGraph [
  [0, 6, 7, INF, INF],
  [INF, 0, 8, -4, 5],
  [INF, INF, 0, 9, -3],
  [INF, INF, INF, 0, 7],
  [INF, -2, INF, INF, 0]]

/-- The spec's 8-node graph with the negative cycle
YEN(2) → CNY(4) → GBP(3) → YEN(2) (`runOnNegativeCycles`). -/
def g8 : Graph := mkGraph [
  [0, 1, INF, INF, INF, INF, INF, INF],
  [INF, 0, 1, INF, INF, 4, 4, INF],
  [INF, INF, 0, INF, 1, INF, INF, INF],
  [INF, INF, 1, 0, INF, INF, INF, INF],
  [INF, INF, INF, -3, 0, INF, INF, INF],
  [INF, INF, INF, INF, INF, 0, 5, 3],
  [INF, INF, INF, INF, INF, INF, 0, 4],
  [INF, INF, INF, INF, INF, INF, INF, 0]]

/-- Two nodes with the negative cycle 0 → 1 → 0 of weight `-2`. -/
def gNegPair : Graph := mkGraph [[0, 1], [-3, 0]]

/-- Three nodes with the negative cycle 0 → 1 → 2 → 0 of weight `-2`. -/
def gCyc3 : Graph := mkGraph [[0, 1, INF], [INF, 0, 1], [-4, INF, 0]]

/-- Two nodes, a single fractional edge `0 → 1` of weight `1/2`; all edge
weights nonnegative, so no negative cycle. -/
def gFrac : Graph := mkGraph [[0, 1/2], [INF, 0]]

/-- Two nodes with the fractional negative cycle
`0 → 1` (weight `3/5`), `1 → 0` (weight `-7/10`): total `-1/10 < 0`. -/
def gCycleFrac : Graph := mkGraph [[0, 3/5], [-7/10, 0]]

/-- Three nodes: one negative edge `0 → 1` of weight `-5`, node 2
unreachable from node 0; no negative cycle. -/
def gUnreach : Graph := mkGraph [[0, -5, INF], [INF, 0, INF], [INF, INF, 0]]

/-- Three nodes: source 0 isolated, negative cycle 1 ⇄ 2 (weight `-2`)
unreachable from the source. -/
def gIsland : Graph := mkGraph [[0, INF, INF], [INF, 0, -1], [INF, -1, 0]]

/-- One node with its conventional zero self-loop. -/
def gSelf : Graph := mkGraph [[0]]

/-- Two nodes with a single huge negative edge `1 → 0` of weight
`-2000001`; no negative cycle, but relaxing from the unreached node 1
(initial distance `INF`) drives `distance[0]` to `-1000001` and sets
`previousVertex[0] = 1`. -/
def gBig : Graph := mkGraph [[0, INF], [-2000001, 0]]

/-- A solved one-node state whose distance is the `NEG_INF` sentinel. -/
def stNegInfW : EngineState := ⟨[NEG_INF], [-1], true⟩

/-- A solved one-node state with distance 0 at the source, relaxation
stable on `gSelf`. -/
def stSolved0 : EngineState := ⟨[0], [-1], true⟩

/-! ## Generic list lemmas -/

theorem getD_set {α : Type} :
    ∀ (l : List α) (i j : ℕ) (x d : α),
      (l.set i x).getD j d = if j = i ∧ j < l.length then x else l.getD j d := by
  intro l
  induction l with
  | nil =>
    intro i j x d
    simp
  | cons a l ih =>
    intro i j x d
    cases i with
    | zero =>
      cases j with
      | zero => simp
      | succ j => simp [List.getD_cons_succ]
    | succ i =>
      cases j with
      | zero => simp
      | succ j =>
        have hstep : ((a :: l).set (i + 1) x).getD (j + 1) d = (l.set i x).getD j d := rfl
        have hstep2 : (a :: l).getD (j + 1) d = l.getD j d := rfl
        rw [hstep, ih i j x d, hstep2]
        by_cases hc : j = i ∧ j < l.length
        · have hc2 : j + 1 = i + 1 ∧ j + 1 < (a :: l).length := by
            simp only [List.length_cons]; omega
          rw [if_pos hc, if_pos hc2]
        · have hc2 : ¬(j + 1 = i + 1 ∧ j + 1 < (a :: l).length) := by
            simp only [List.length_cons]; omega
          rw [if_neg hc, if_neg hc2]

theorem set_getD_self {α : Type} :
    ∀ (l : List α) (i : ℕ) (d : α), l.set i (l.getD i d) = l := by
  intro l
  induction l with
  | nil => intro i d; rfl
  | cons a l ih =>
    intro i d
    cases i with
    | zero => rfl
    | succ i => exact congrArg (List.cons a) (ih i d)

theorem mem_pairs {n u v : ℕ} : (u, v) ∈ pairs n ↔ u < n ∧ v < n := by
  unfold pairs
  rw [List.mem_flatMap]
  constructor
  · rintro ⟨a, ha, hm⟩
    rw [List.mem_map] at hm
    obtain ⟨b, hb, hab⟩ := hm
    cases hab
    exact ⟨List.mem_range.mp ha, List.mem_range.mp hb⟩
  · rintro ⟨hu, hv⟩
    exact ⟨u, List.mem_range.mpr hu, List.mem_map.mpr ⟨v, List.mem_range.mpr hv, rfl⟩⟩

theorem foldl_pres {β α : Type} (f : β → α → β) (P : β → Prop) :
    ∀ (l : List α), (∀ a ∈ l, ∀ b, P b → P (f b a)) → ∀ b, P b → P (l.foldl f b) := by
  intro l
  induction l with
  | nil => intro _ b hb; simpa using hb
  | cons a l ih =>
    intro h b hb
    simp only [List.foldl_cons]
    exact ih (fun x hx b2 hb2 => h x (List.mem_cons_of_mem a hx) b2 hb2) (f b a)
      (h a (List.mem_cons_self a l) b hb)

theorem foldl_noop {β α : Type} (f : β → α → β) :
    ∀ (l : List α) (b : β), (∀ a ∈ l, f b a = b) → l.foldl f b = b := by
  intro l
  induction l with
  | nil => intro b _; rfl
  | cons a l ih =>
    intro b h
    simp only [List.foldl_cons, h a (List.mem_cons_self a l)]
    exact ih b (fun x hx => h x (List.mem_cons_of_mem a hx))

theorem startFrom_self (st : EngineState) (s : ℕ) (h : st.dist s = 0) :
    startFrom st s = st := by
  unfold startFrom
  unfold EngineState.dist at h
  cases st with
  | mk d p so =>
    simp only [EngineState.mk.injEq, and_true]
    simp only at h
    rw [← h]
    exact set_getD_self d s INF

/-! ## Stability of each strategy at a relaxation fixpoint -/

theorem passA_fix (g : Graph) (st : EngineState) (h : FixA g st) :
    passA g st = (st, false) := by
  unfold passA
  refine foldl_noop _ _ _ ?_
  rintro ⟨u, v⟩ hm
  obtain ⟨hu, hv⟩ := mem_pairs.mp hm
  simp only [relaxA]
  rw [if_neg (h u hu v hv)]

theorem loopA_fix (g : Graph) (st : EngineState) (h : passA g st = (st, false)) :
    ∀ k, loopA g k st = (st, false) := by
  intro k
  cases k with
  | zero => rfl
  | succ k => simp [loopA, h]

theorem passB_fix (g : Graph) (s : ℕ) (st : EngineState) (h : FixB g s st) :
    passB g s st = (st, false) := by
  unfold passB
  refine foldl_noop _ _ _ ?_
  rintro ⟨u, v⟩ hm
  obtain ⟨hu, hv⟩ := mem_pairs.mp hm
  simp only [relaxB]
  by_cases h1 : u ≠ s ∧ st.prev u = -1
  · rw [if_pos h1]
  · rw [if_neg h1]
    by_cases h2 : g.Matrix u v = INF
    · rw [if_pos h2]
    · rw [if_neg h2]
      have h3 : u = s ∨ st.prev u ≠ -1 := by tauto
      rw [if_neg (h u hu v hv h3 h2)]

theorem loopB_fix (g : Graph) (s : ℕ) (st : EngineState)
    (h : passB g s st = (st, false)) : ∀ k, loopB g s k st = (st, false) := by
  intro k
  induction k with
  | zero => rfl
  | succ k ih =>
    simp only [loopB, h]
    split
    · rfl
    · exact ih

theorem passC_fix (g : Graph) (st : EngineState) (h : FixC g st) :
    passC g st = st := by
  unfold passC
  refine foldl_noop _ _ _ ?_
  rintro ⟨u, v⟩ hm
  obtain ⟨hu, hv⟩ := mem_pairs.mp hm
  simp only [relaxC]
  by_cases h2 : g.Matrix u v = INF
  · rw [if_pos h2]
  · rw [if_neg h2, if_neg (h u hu v hv h2)]

theorem iterC_fix (g : Graph) (st : EngineState) (h : passC g st = st) :
    ∀ k, iterC g k st = st := by
  intro k
  induction k with
  | zero => rfl
  | succ k ih => simp only [iterC, h]; exact ih

theorem passC2_fix (g : Graph) (st : EngineState) (h : FixC g st) (b : Bool) :
    passC2 g (st, b) = (st, b) := by
  unfold passC2
  refine foldl_noop _ _ _ ?_
  rintro ⟨u, v⟩ hm
  obtain ⟨hu, hv⟩ := mem_pairs.mp hm
  simp only [relaxC2]
  by_cases h2 : g.Matrix u v = INF
  · rw [if_pos h2]
  · rw [if_neg h2, if_neg (h u hu v hv h2)]

theorem iterC2_fix (g : Graph) (st : EngineState) (h : FixC g st) (b : Bool) :
    ∀ k, iterC2 g k (st, b) = (st, b) := by
  intro k
  induction k with
  | zero => rfl
  | succ k ih => simp only [iterC2, passC2_fix g st h b]; exact ih

theorem processNode_fix (g : Graph) (st : EngineState) (u : ℕ) (hu : u < g.n)
    (h : FixC g st) : processNode g st u = (st, []) := by
  unfold processNode
  refine foldl_noop _ _ _ ?_
  intro v hm
  have hv : v < g.n := List.mem_range.mp hm
  simp only [relaxD]
  by_cases h2 : g.Matrix u v = INF
  · rw [if_pos h2]
  · rw [if_neg h2, if_neg (h u hu v hv h2)]

theorem goD_nil (g : Graph) : ∀ (fuel : ℕ) (st : EngineState),
    goD g fuel [] st = { st with solved := true } := by
  intro fuel
  induction fuel with
  | zero => intro st; rfl
  | succ fuel ih =>
    intro st
    simp only [goD, processBatch]
    exact ih st

theorem goD_solved (g : Graph) : ∀ (fuel : ℕ) (batch : List ℕ) (st : EngineState),
    (goD g fuel batch st).solved = true := by
  intro fuel
  induction fuel with
  | zero => intro batch st; rfl
  | succ fuel ih => intro batch st; simp only [goD]; exact ih _ _

/-! ## Iterating passes one at a time (for concrete evaluation) -/

theorem iterC_add (g : Graph) (a b : ℕ) :
    ∀ st, iterC g (a + b) st = iterC g a (iterC g b st) := by
  induction b with
  | zero => intro st; rfl
  | succ b ih =>
    intro st
    show iterC g (a + b + 1) st = iterC g a (iterC g (b + 1) st)
    simp only [iterC]
    exact ih (passC g st)

theorem iterC2_add (g : Graph) (a b : ℕ) :
    ∀ p, iterC2 g (a + b) p = iterC2 g a (iterC2 g b p) := by
  induction b with
  | zero => intro p; rfl
  | succ b ih =>
    intro p
    show iterC2 g (a + b + 1) p = iterC2 g a (iterC2 g (b + 1) p)
    simp only [iterC2]
    exact ih (passC2 g p)

theorem getD_replicate_self {α : Type} :
    ∀ (n i : ℕ) (x : α), (List.replicate n x).getD i x = x := by
  intro n
  induction n with
  | zero => intro i x; rfl
  | succ n ih =>
    intro i x
    cases i with
    | zero => rfl
    | succ i => exact ih i x

/-! ## The reachability invariant of the guarded strategies B and D -/

theorem ReachInv.update (g : Graph) (s : ℕ) (st : EngineState) (u v : ℕ)
    (hu : u < g.n) (hv : v < g.n) (hM : g.Matrix u v ≠ INF)
    (hru : Reaches g s u) (hsz : SizeOK g st) (h : ReachInv g s st) (d : ℚ) :
    ReachInv g s { st with shortestPath := st.shortestPath.set v d,
                           previousVertex := st.previousVertex.set v (u : ℤ) } := by
  intro w
  have hprev : ({ st with
                    shortestPath := st.shortestPath.set v d,
                    previousVertex := st.previousVertex.set v (u : ℤ) } : EngineState).prev w =
      if w = v ∧ w < st.previousVertex.length then (u : ℤ) else st.prev w :=
    getD_set st.previousVertex v w (u : ℤ) (-1)
  have hdist : ({ st with
                    shortestPath := st.shortestPath.set v d,
                    previousVertex := st.previousVertex.set v (u : ℤ) } : EngineState).dist w =
      if w = v ∧ w < st.shortestPath.length then d else st.dist w :=
    getD_set st.shortestPath v w d INF
  rw [hprev, hdist]
  by_cases hwv : w = v
  · subst hwv
    rw [if_pos ⟨rfl, by rw [hsz.2]; exact hv⟩, if_pos ⟨rfl, by rw [hsz.1]; exact hv⟩]
    constructor
    · intro _
      exact hru.tail ⟨hu, hv, hM⟩
    · intro hw
      exact absurd hw (by omega)
  · rw [if_neg (fun hc => hwv hc.1), if_neg (fun hc => hwv hc.1)]
    exact h w

theorem ReachInv_start (g : Graph) (s : ℕ) (hs : s < g.n) :
    SizeOK g (startFrom (initState g.n) s) ∧ ReachInv g s (startFrom (initState g.n) s) := by
  refine ⟨⟨by simp [startFrom, initState], by simp [startFrom, initState]⟩, ?_⟩
  intro v
  constructor
  · intro hv
    have h2 : (startFrom (initState g.n) s).prev v = -1 :=
      getD_replicate_self g.n v (-1)
    exact absurd h2 hv
  · intro _
    have hd : (startFrom (initState g.n) s).dist v =
        if v = s ∧ v < (List.replicate g.n INF).length then 0
        else (List.replicate g.n INF).getD v INF :=
      getD_set (List.replicate g.n INF) s v 0 INF
    rw [hd, getD_replicate_self]
    by_cases hvs : v = s
    · subst hvs
      rw [if_pos ⟨rfl, by simpa using hs⟩, if_pos rfl]
    · rw [if_neg (fun hc => hvs hc.1), if_neg hvs]

theorem passB_inv (g : Graph) (s : ℕ) (st : EngineState)
    (h : SizeOK g st ∧ ReachInv g s st) :
    SizeOK g (passB g s st).1 ∧ ReachInv g s (passB g s st).1 := by
  unfold passB
  refine foldl_pres _ (fun p => SizeOK g p.1 ∧ ReachInv g s p.1) _ ?_ (st, false) h
  rintro ⟨u, v⟩ hm p hp
  obtain ⟨hu, hv⟩ := mem_pairs.mp hm
  simp only [relaxB]
  by_cases h1 : u ≠ s ∧ p.1.prev u = -1
  · rw [if_pos h1]; exact hp
  · rw [if_neg h1]
    by_cases h2 : g.Matrix u v = INF
    · rw [if_pos h2]; exact hp
    · rw [if_neg h2]
      by_cases h3 : p.1.dist v > ((ratTrunc (p.1.dist u + g.Matrix u v) : ℤ) : ℚ)
      · rw [if_pos h3]
        have hru : Reaches g s u := by
          rcases not_and_or.mp h1 with h4 | h4
          · rw [not_not] at h4
            subst h4
            exact Relation.ReflTransGen.refl
          · exact (hp.2 u).1 h4
        exact ⟨⟨by simpa using hp.1.1, by simpa using hp.1.2⟩,
          ReachInv.update g s p.1 u v hu hv h2 hru hp.1 hp.2 _⟩
      · rw [if_neg h3]; exact hp

theorem loopB_inv (g : Graph) (s : ℕ) : ∀ (k : ℕ) (st : EngineState),
    SizeOK g st ∧ ReachInv g s st →
      SizeOK g (loopB g s k st).1 ∧ ReachInv g s (loopB g s k st).1 := by
  intro k
  induction k with
  | zero => intro st h; exact h
  | succ k ih =>
    intro st h
    simp only [loopB]
    split
    · exact passB_inv g s st h
    · exact ih _ (passB_inv g s st h)

theorem processNode_inv (g : Graph) (s : ℕ) (u : ℕ) (hu : u < g.n)
    (hru : Reaches g s u) (st : EngineState) (h : SizeOK g st ∧ ReachInv g s st) :
    (SizeOK g (processNode g st u).1 ∧ ReachInv g s (processNode g st u).1) ∧
      ∀ x ∈ (processNode g st u).2, x < g.n ∧ Reaches g s x := by
  unfold processNode
  refine foldl_pres _
    (fun q => (SizeOK g q.1 ∧ ReachInv g s q.1) ∧ ∀ x ∈ q.2, x < g.n ∧ Reaches g s x)
    _ ?_ (st, []) ⟨h, by simp⟩
  intro v hm p hp
  have hv : v < g.n := List.mem_range.mp hm
  simp only [relaxD]
  by_cases h2 : g.Matrix u v = INF
  · rw [if_pos h2]; exact hp
  · rw [if_neg h2]
    by_cases h3 : p.1.dist v > p.1.dist u + g.Matrix u v
    · rw [if_pos h3]
      refine ⟨⟨⟨by simpa using hp.1.1.1, by simpa using hp.1.1.2⟩,
        ReachInv.update g s p.1 u v hu hv h2 hru hp.1.1 hp.1.2 _⟩, ?_⟩
      intro x hx
      rcases List.mem_append.mp hx with hx | hx
      · exact hp.2 x hx
      · rcases List.mem_singleton.mp hx with rfl
        exact ⟨hv, hru.tail ⟨hu, hv, h2⟩⟩
    · rw [if_neg h3]; exact hp

theorem processBatch_inv (g : Graph) (s : ℕ) :
    ∀ (batch : List ℕ) (st : EngineState), SizeOK g st ∧ ReachInv g s st →
      (∀ u ∈ batch, u < g.n ∧ Reaches g s u) →
      (SizeOK g (processBatch g batch st).1 ∧ ReachInv g s (processBatch g batch st).1) ∧
        ∀ x ∈ (processBatch g batch st).2, x < g.n ∧ Reaches g s x := by
  intro batch
  induction batch with
  | nil =>
    intro st h _
    exact ⟨h, by simp [processBatch]⟩
  | cons u rest ih =>
    intro st h hb
    obtain ⟨hu, hru⟩ := hb u (List.mem_cons_self u rest)
    obtain ⟨h1, hp1⟩ := processNode_inv g s u hu hru st h
    obtain ⟨h2, hp2⟩ :=
      ih (processNode g st u).1 h1 (fun x hx => hb x (List.mem_cons_of_mem u hx))
    simp only [processBatch]
    refine ⟨h2, ?_⟩
    intro x hx
    rcases List.mem_append.mp hx with hx | hx
    · exact hp1 x hx
    · exact hp2 x hx

theorem goD_inv (g : Graph) (s : ℕ) :
    ∀ (fuel : ℕ) (batch : List ℕ) (st : EngineState), SizeOK g st ∧ ReachInv g s st →
      (∀ u ∈ batch, u < g.n ∧ Reaches g s u) →
      ReachInv g s (goD g fuel batch st) := by
  intro fuel
  induction fuel with
  | zero =>
    intro batch st h _
    exact h.2
  | succ fuel ih =>
    intro batch st h hb
    simp only [goD]
    obtain ⟨h1, hp⟩ := processBatch_inv g s batch st h hb
    exact ih _ _ h1 hp

/-- An unreached destination (with no recorded predecessor) still holds
`INF`. -/
theorem ReachInv_unreached (g : Graph) (s v : ℕ) (st : EngineState)
    (h : ReachInv g s st) (hnr : ¬ Reaches g s v) (hvs : v ≠ s) :
    st.prev v = -1 ∧ st.dist v = INF := by
  by_cases hp : st.prev v = -1
  · refine ⟨hp, ?_⟩
    rw [(h v).2 hp, if_neg hvs]
  · exact absurd ((h v).1 hp) hnr

/-! ## Shared facts about `ReconstructShortestPath` -/

theorem reconstruct_pred_none (g : Graph) (st : EngineState) (s v : ℕ)
    (hsol : st.solved = true) (hnd : st.dist v ≠ NEG_INF) (hp : st.prev v = -1) :
    ReconstructShortestPath g st s v = [s] := by
  unfold ReconstructShortestPath
  rw [if_pos hsol, if_neg hnd]
  simp [predWalk, hp]

/-! ## Absence of negative cycles via a nonnegative reduced-cost potential -/

theorem noNegCycle_of_reducedCosts (g : Graph) (φ : ℕ → ℚ)
    (h : reducedCostsOK g φ = true) : ¬ HasNegCycle g := by
  have hedge : ∀ u v, edgeEx g u v → 0 ≤ g.Matrix u v + φ u - φ v := by
    rintro u v ⟨hu, hv, hM⟩
    have h2 := List.all_eq_true.mp h (u, v) (mem_pairs.mpr ⟨hu, hv⟩)
    rw [decide_eq_true_eq] at h2
    rcases h2 with h2 | h2
    · exact absurd h2 hM
    · exact h2
  have hwalk : ∀ (l : List ℕ) (u w : ℕ), IsWalkFrom g u l w →
      φ w - φ u ≤ walkWeight g u l := by
    intro l
    induction l with
    | nil =>
      intro u w hw
      have h2 : u = w := hw
      subst h2
      simp [walkWeight]
    | cons x l ih =>
      intro u w hw
      have h2 : edgeEx g u x ∧ IsWalkFrom g x l w := hw
      obtain ⟨he, hw2⟩ := h2
      have h3 := hedge u x he
      have h4 := ih x w hw2
      have h5 : walkWeight g u (x :: l) = g.Matrix u x + walkWeight g x l := rfl
      rw [h5]
      linarith
  rintro ⟨u, l, _hne, hwl, hneg⟩
  have h6 := hwalk l u u hwl
  rw [sub_self] at h6
  linarith

/-! ## Reachable sets of the concrete graphs -/

theorem gUnreach_reach : ∀ v, Reaches gUnreach 0 v → v = 0 ∨ v = 1 := by
  intro v h
  induction h with
  | refl => exact Or.inl rfl
  | tail _hab hbc ih =>
    rename_i b c
    obtain ⟨hb, hc, hM⟩ := hbc
    have hc3 : c < 3 := hc
    rcases ih with rfl | rfl
    · interval_cases c
      · exact Or.inl rfl
      · exact Or.inr rfl
      · exact absurd hM (by decide)
    · interval_cases c
      · exact absurd hM (by decide)
      · exact Or.inr rfl
      · exact absurd hM (by decide)

theorem gIsland_reach : ∀ v, Reaches gIsland 0 v → v = 0 := by
  intro v h
  induction h with
  | refl => rfl
  | tail _hab hbc ih =>
    rename_i b c
    obtain ⟨hb, hc, hM⟩ := hbc
    subst ih
    have hc3 : c < 3 := hc
    interval_cases c
    · rfl
    · exact absurd hM (by decide)
    · exact absurd hM (by decide)

/-! ## Concrete evaluation of `FindPathsAndNegativeCycles` on the two
spec graphs, one pass at a time (the full runs are too deep for a single
kernel evaluation) -/

theorem g5_phase1 :
    iterC g5 4 (startFrom (initState 5) 0) =
      ⟨[0, 2, 7, -2, 4], [-1, 4, 0, 1, 2], false⟩ := by
  have e1 : iterC g5 1 (startFrom (initState 5) 0) =
      ⟨[0, 2, 7, 2, 4], [-1, 4, 0, 1, 2], false⟩ := by decide
  have e2 : iterC g5 1 (⟨[0, 2, 7, 2, 4], [-1, 4, 0, 1, 2], false⟩ : EngineState) =
      ⟨[0, 2, 7, -2, 4], [-1, 4, 0, 1, 2], false⟩ := by decide
  have e3 : iterC g5 1 (⟨[0, 2, 7, -2, 4], [-1, 4, 0, 1, 2], false⟩ : EngineState) =
      ⟨[0, 2, 7, -2, 4], [-1, 4, 0, 1, 2], false⟩ := by decide
  rw [show (4 : ℕ) = 3 + 1 from rfl, iterC_add g5 3 1, e1,
    show (3 : ℕ) = 2 + 1 from rfl, iterC_add g5 2 1, e2,
    show (2 : ℕ) = 1 + 1 from rfl, iterC_add g5 1 1, e3, e3]

theorem g5_run :
    FindPathsAndNegativeCycles g5 0 =
      (false, ⟨[0, 2, 7, -2, 4], [-1, 4, 0, 1, 2], true⟩) := by
  have f1 : iterC2 g5 1 ((⟨[0, 2, 7, -2, 4], [-1, 4, 0, 1, 2], false⟩ : EngineState), false) =
      ((⟨[0, 2, 7, -2, 4], [-1, 4, 0, 1, 2], false⟩ : EngineState), false) := by decide
  have h2 : iterC2 g5 4 ((⟨[0, 2, 7, -2, 4], [-1, 4, 0, 1, 2], false⟩ : EngineState), false) =
      ((⟨[0, 2, 7, -2, 4], [-1, 4, 0, 1, 2], false⟩ : EngineState), false) := by
    rw [show (4 : ℕ) = 3 + 1 from rfl, iterC2_add g5 3 1, f1,
      show (3 : ℕ) = 2 + 1 from rfl, iterC2_add g5 2 1, f1,
      show (2 : ℕ) = 1 + 1 from rfl, iterC2_add g5 1 1, f1, f1]
  show FindPathsAndNegativeCyclesRun g5 0 (initState g5.n) = _
  simp only [FindPathsAndNegativeCyclesRun]
  rw [show g5.n - 1 = 4 from rfl, show g5.n = 5 from rfl, g5_phase1, h2]

theorem g8_phase1 :
    iterC g8 7 (startFrom (initState 8) 0) =
      ⟨[0, 1, -1, -3, 0, 5, 5, 8], [-1, 0, 3, 4, 2, 1, 1, 5], false⟩ := by
  have e1 : iterC g8 1 (startFrom (initState 8) 0) =
      ⟨[0, 1, 2, 0, 3, 5, 5, 8], [-1, 0, 1, 4, 2, 1, 1, 5], false⟩ := by decide
  have e2 : iterC g8 1 (⟨[0, 1, 2, 0, 3, 5, 5, 8], [-1, 0, 1, 4, 2, 1, 1, 5], false⟩ : EngineState) =
      ⟨[0, 1, 1, 0, 3, 5, 5, 8], [-1, 0, 3, 4, 2, 1, 1, 5], false⟩ := by decide
  have e3 : iterC g8 1 (⟨[0, 1, 1, 0, 3, 5, 5, 8], [-1, 0, 3, 4, 2, 1, 1, 5], false⟩ : EngineState) =
      ⟨[0, 1, 1, -1, 2, 5, 5, 8], [-1, 0, 3, 4, 2, 1, 1, 5], false⟩ := by decide
  have e4 : iterC g8 1 (⟨[0, 1, 1, -1, 2, 5, 5, 8], [-1, 0, 3, 4, 2, 1, 1, 5], false⟩ : EngineState) =
      ⟨[0, 1, 0, -1, 2, 5, 5, 8], [-1, 0, 3, 4, 2, 1, 1, 5], false⟩ := by decide
  have e5 : iterC g8 1 (⟨[0, 1, 0, -1, 2, 5, 5, 8], [-1, 0, 3, 4, 2, 1, 1, 5], false⟩ : EngineState) =
      ⟨[0, 1, 0, -2, 1, 5, 5, 8], [-1, 0, 3, 4, 2, 1, 1, 5], false⟩ := by decide
  have e6 : iterC g8 1 (⟨[0, 1, 0, -2, 1, 5, 5, 8], [-1, 0, 3, 4, 2, 1, 1, 5], false⟩ : EngineState) =
      ⟨[0, 1, -1, -2, 1, 5, 5, 8], [-1, 0, 3, 4, 2, 1, 1, 5], false⟩ := by decide
  have e7 : iterC g8 1 (⟨[0, 1, -1, -2, 1, 5, 5, 8], [-1, 0, 3, 4, 2, 1, 1, 5], false⟩ : EngineState) =
      ⟨[0, 1, -1, -3, 0, 5, 5, 8], [-1, 0, 3, 4, 2, 1, 1, 5], false⟩ := by decide
  rw [show (7 : ℕ) = 6 + 1 from rfl, iterC_add g8 6 1, e1,
    show (6 : ℕ) = 5 + 1 from rfl, iterC_add g8 5 1, e2,
    show (5 : ℕ) = 4 + 1 from rfl, iterC_add g8 4 1, e3,
    show (4 : ℕ) = 3 + 1 from rfl, iterC_add g8 3 1, e4,
    show (3 : ℕ) = 2 + 1 from rfl, iterC_add g8 2 1, e5,
    show (2 : ℕ) = 1 + 1 from rfl, iterC_add g8 1 1, e6, e7]

theorem g8_run :
    FindPathsAndNegativeCycles g8 0 =
      (true, ⟨[0, 1, NEG_INF, NEG_INF, NEG_INF, 5, 5, 8],
        [-1, 0, -2, -2, -2, 1, 1, 5], true⟩) := by
  have f1 : iterC2 g8 1 ((⟨[0, 1, -1, -3, 0, 5, 5, 8], [-1, 0, 3, 4, 2, 1, 1, 5], false⟩ : EngineState), false) =
      ((⟨[0, 1, NEG_INF, -3, 0, 5, 5, 8], [-1, 0, -2, 4, 2, 1, 1, 5], false⟩ : EngineState), true) := by decide
  have f2 : iterC2 g8 1 ((⟨[0, 1, NEG_INF, -3, 0, 5, 5, 8], [-1, 0, -2, 4, 2, 1, 1, 5], false⟩ : EngineState), true) =
      ((⟨[0, 1, NEG_INF, NEG_INF, NEG_INF, 5, 5, 8], [-1, 0, -2, -2, -2, 1, 1, 5], false⟩ : EngineState), true) := by decide
  have f3 : iterC2 g8 1 ((⟨[0, 1, NEG_INF, NEG_INF, NEG_INF, 5, 5, 8], [-1, 0, -2, -2, -2, 1, 1, 5], false⟩ : EngineState), true) =
      ((⟨[0, 1, NEG_INF, NEG_INF, NEG_INF, 5, 5, 8], [-1, 0, -2, -2, -2, 1, 1, 5], false⟩ : EngineState), true) := by decide
  have h2 : iterC2 g8 7 ((⟨[0, 1, -1, -3, 0, 5, 5, 8], [-1, 0, 3, 4, 2, 1, 1, 5], false⟩ : EngineState), false) =
      ((⟨[0, 1, NEG_INF, NEG_INF, NEG_INF, 5, 5, 8], [-1, 0, -2, -2, -2, 1, 1, 5], false⟩ : EngineState), true) := by
    rw [show (7 : ℕ) = 6 + 1 from rfl, iterC2_add g8 6 1, f1,
      show (6 : ℕ) = 5 + 1 from rfl, iterC2_add g8 5 1, f2,
      show (5 : ℕ) = 4 + 1 from rfl, iterC2_add g8 4 1, f3,
      show (4 : ℕ) = 3 + 1 from rfl, iterC2_add g8 3 1, f3,
      show (3 : ℕ) = 2 + 1 from rfl, iterC2_add g8 2 1, f3,
      show (2 : ℕ) = 1 + 1 from rfl, iterC2_add g8 1 1, f3, f3]
  show FindPathsAndNegativeCyclesRun g8 0 (initState g8.n) = _
  simp only [FindPathsAndNegativeCyclesRun]
  rw [show g8.n - 1 = 7 from rfl, show g8.n = 8 from rfl, g8_phase1, h2]

/-! ## Strategy A never writes the cycle sentinels and leaves `_solved`
untouched on the cycle-reporting path -/

theorem loopA_no_sentinel (g : Graph) :
    ∀ k st, (st.solved = false ∧ ∀ v, st.prev v ≠ -2) →
      ((loopA g k st).1.solved = false ∧ ∀ v, (loopA g k st).1.prev v ≠ -2) := by
  have hpass : ∀ st : EngineState, (st.solved = false ∧ ∀ v, st.prev v ≠ -2) →
      ((passA g st).1.solved = false ∧ ∀ v, (passA g st).1.prev v ≠ -2) := by
    intro st h
    unfold passA
    refine foldl_pres _ (fun p => p.1.solved = false ∧ ∀ v, p.1.prev v ≠ -2) _ ?_
      (st, false) h
    rintro ⟨u, v⟩ _ p hp
    simp only [relaxA]
    by_cases hc : p.1.dist v > p.1.dist u + g.Matrix u v
    · rw [if_pos hc]
      refine ⟨hp.1, ?_⟩
      intro w
      have h2 : ({ p.1 with
                     shortestPath := p.1.shortestPath.set v (p.1.dist u + g.Matrix u v),
                     previousVertex := p.1.previousVertex.set v (u : ℤ) } : EngineState).prev w =
          if w = v ∧ w < p.1.previousVertex.length then (u : ℤ) else p.1.prev w :=
        getD_set p.1.previousVertex v w (u : ℤ) (-1)
      rw [h2]
      split
      · omega
      · exact hp.2 w
    · rw [if_neg hc]; exact hp
  intro k
  induction k with
  | zero => intro st h; exact h
  | succ k ih =>
    intro st h
    simp only [loopA]
    split
    · exact hpass st h
    · split
      · exact hpass st h
      · exact ih _ (hpass st h)

theorem g8_reach2 : ∀ v, Reaches g8 2 v → v = 2 ∨ v = 3 ∨ v = 4 := by
  intro v h
  induction h with
  | refl => exact Or.inl rfl
  | tail _hab hbc ih =>
    rename_i b c
    obtain ⟨hb, hc, hM⟩ := hbc
    have hc8 : c < 8 := hc
    rcases ih with rfl | rfl | rfl
    · interval_cases c <;>
        first
          | exact Or.inl rfl
          | exact Or.inr (Or.inl rfl)
          | exact Or.inr (Or.inr rfl)
          | exact absurd hM (by decide)
    · interval_cases c <;>
        first
          | exact Or.inl rfl
          | exact Or.inr (Or.inl rfl)
          | exact Or.inr (Or.inr rfl)
          | exact absurd hM (by decide)
    · interval_cases c <;>
        first
          | exact Or.inl rfl
          | exact Or.inr (Or.inl rfl)
          | exact Or.inr (Or.inr rfl)
          | exact absurd hM (by decide)

/-! ## The claims -/

/-- Claim C1, counterexample: on the cycle-free graph `gFrac` (its single
real edge `0 → 1` has weight `1/2`; all edge weights are nonnegative, so
no negative cycle exists), Strategy B computes `distance[1] = 0` — its
`int new_distance` truncation discards the fraction — while Strategy C
computes the true `1/2`.  The strategies differ by `1/2`, far beyond any
floating-point tolerance, so the four strategies do not agree on every
cycle-free graph. -/
theorem c1_counterexample :
    ¬ HasNegCycle gFrac ∧
    (ContainsNegativeCycles_Sedgewick gFrac 0).2.dist 1 = 0 ∧
    (FindPathsAndNegativeCycles gFrac 0).2.dist 1 = 1 / 2 := by
  refine ⟨noNegCycle_of_reducedCosts gFrac (fun _ => 0) (by decide), by decide, by decide⟩

/-- Claim C1 (amended): the four strategies need not agree on an arbitrary
cycle-free graph (Strategy B truncates candidate distances to integers and
Strategy A relaxes through the no-edge sentinel), but on the spec's 5-node
currency graph — integer weights, every node reachable, no negative
cycle — all four produce the identical distance array `[0, 2, 7, -2, 4]`. -/
theorem c1_agreement_on_g5 :
    ¬ HasNegCycle g5 ∧
    (ContainsNegativeCycles g5 0).2.shortestPath = [0, 2, 7, -2, 4] ∧
    (ContainsNegativeCycles_Sedgewick g5 0).2.shortestPath = [0, 2, 7, -2, 4] ∧
    (FindPathsAndNegativeCycles g5 0).2.shortestPath = [0, 2, 7, -2, 4] ∧
    (FindPathOnly g5 0).shortestPath = [0, 2, 7, -2, 4] := by
  refine ⟨noNegCycle_of_reducedCosts g5 (fun w => [0, 2, 7, -2, 4].getD w 0) (by decide),
    by decide, by decide, ?_, by decide⟩
  rw [g5_run]

/-- Claim C2: on `gCycleFrac` the cycle `0 → 1 → 0` exists and has weight
`3/5 - 7/10 = -1/10 < 0`; Strategies A and C report the negative cycle,
but Strategy B (`ContainsNegativeCycles_Sedgewick`) returns `false`
because its `int new_distance` truncation hides the fractional
improvements — contradicting its own documentation ("Checks if graph
contains negative cycle"), the spec, and the exact-arithmetic behaviour
of the sibling strategies. -/
theorem c2_sedgewick_truncation_bug :
    IsWalkFrom gCycleFrac 0 [1, 0] 0 ∧
    walkWeight gCycleFrac 0 [1, 0] < 0 ∧
    HasNegCycle gCycleFrac ∧
    (ContainsNegativeCycles gCycleFrac 0).1 = true ∧
    (FindPathsAndNegativeCycles gCycleFrac 0).1 = true ∧
    (ContainsNegativeCycles_Sedgewick gCycleFrac 0).1 = false := by
  refine ⟨by decide, by decide, ⟨0, [1, 0], by decide, by decide, by decide⟩,
    by decide, by decide, by decide⟩

/-- Claim C3, counterexample: on `gIsland` the negative cycle `1 ⇄ 2` is
not reachable from source 0 (nothing but 0 itself is), yet
`FindPathsAndNegativeCycles` marks node 1 with the `NEG_INF` sentinel: the
marked set is not contained in the set of nodes reachable from the
source. -/
theorem c3_counterexample :
    (FindPathsAndNegativeCycles gIsland 0).1 = true ∧
    (FindPathsAndNegativeCycles gIsland 0).2.dist 1 = NEG_INF ∧
    ¬ Reaches gIsland 0 1 := by
  refine ⟨by decide, by decide, ?_⟩
  intro h
  exact absurd (gIsland_reach 1 h) (by decide)

/-- Claim C3 (amended): the nodes marked `NEG_INF` by Strategy C are the
nodes reachable from a node on a negative cycle, whether or not the
source reaches that cycle (and assuming, as in all the repository's
graphs, weights small against the sentinel magnitude).  On the spec's
8-node graph from source 0: the cycle `2 → 4 → 3 → 2` has weight `-1`,
and the marked set is exactly the set of nodes reachable from cycle node
2, namely `{2, 3, 4}`. -/
theorem c3_marked_set_on_g8 :
    (FindPathsAndNegativeCycles g8 0).1 = true ∧
    IsWalkFrom g8 2 [4, 3, 2] 2 ∧
    walkWeight g8 2 [4, 3, 2] < 0 ∧
    (∀ v, v < 8 →
      ((FindPathsAndNegativeCycles g8 0).2.dist v = NEG_INF ↔ Reaches g8 2 v)) := by
  refine ⟨by rw [g8_run], by decide, by decide, ?_⟩
  intro v hv
  rw [g8_run]
  constructor
  · intro hm
    interval_cases v
    · exact absurd hm (by decide)
    · exact absurd hm (by decide)
    · exact Relation.ReflTransGen.refl
    · exact Relation.ReflTransGen.tail
        (Relation.ReflTransGen.single (show edgeEx g8 2 4 by decide))
        (show edgeEx g8 4 3 by decide)
    · exact Relation.ReflTransGen.single (show edgeEx g8 2 4 by decide)
    · exact absurd hm (by decide)
    · exact absurd hm (by decide)
    · exact absurd hm (by decide)
  · intro hr
    rcases g8_reach2 v hr with rfl | rfl | rfl
    · decide
    · decide
    · decide

/-- Claim C3, witness: the amended theorem applied at node 4 of the
8-node graph. -/
theorem c3_witness :
    (FindPathsAndNegativeCycles g8 0).2.dist 4 = NEG_INF ↔ Reaches g8 2 4 :=
  c3_marked_set_on_g8.2.2.2 4 (by decide)

/-- Claim C4, counterexample: on `gNegPair` Strategy A reports the
negative cycle (returns `true`), but the success flag `_solved` is left
`false` — the `return true` at line 72 of `main.cpp` executes before
`_solved = true` at line 78 — contradicting the claim that the flag is
set to `true` when a cycle is reported. -/
theorem c4_counterexample :
    (ContainsNegativeCycles gNegPair 0).1 = true ∧
    (ContainsNegativeCycles gNegPair 0).2.solved = false := by
  exact ⟨by decide, by decide⟩

/-- Claim C4 (amended): `ContainsNegativeCycles` returns `true` exactly
when the last executed pass made an update and the extra verification
pass over all ordered pairs still finds an admissible improvement; on
that path the solved flag remains `false` (not `true` as claimed), and in
all cases no node's predecessor is ever marked with the cycle sentinel
`-2` (presence-only detection, never membership). -/
theorem c4_verification_no_marking (g : Graph) (s : ℕ) :
    ((ContainsNegativeCycles g s).1 = true ↔
      ((loopA g (g.n - 1) (startFrom (initState g.n) s)).2 = true ∧
        improvableA g (loopA g (g.n - 1) (startFrom (initState g.n) s)).1 = true)) ∧
    ((ContainsNegativeCycles g s).1 = true → (ContainsNegativeCycles g s).2.solved = false) ∧
    (∀ v, (ContainsNegativeCycles g s).2.prev v ≠ -2) := by
  have hbase : (startFrom (initState g.n) s).solved = false ∧
      ∀ v, (startFrom (initState g.n) s).prev v ≠ -2 := by
    refine ⟨rfl, ?_⟩
    intro v
    have h2 : (startFrom (initState g.n) s).prev v = -1 := getD_replicate_self g.n v (-1)
    rw [h2]
    decide
  have hq := loopA_no_sentinel g (g.n - 1) (startFrom (initState g.n) s) hbase
  simp only [ContainsNegativeCycles, ContainsNegativeCyclesRun]
  by_cases hb : ((loopA g (g.n - 1) (startFrom (initState g.n) s)).2 &&
      improvableA g (loopA g (g.n - 1) (startFrom (initState g.n) s)).1) = true
  · rw [if_pos hb]
    rw [Bool.and_eq_true] at hb
    refine ⟨?_, fun _ => hq.1, fun v => hq.2 v⟩
    simp [hb.1, hb.2]
  · rw [if_neg hb]
    rw [Bool.and_eq_true] at hb
    refine ⟨?_, ?_, fun v => hq.2 v⟩
    · constructor
      · intro h2
        exact absurd h2 (by simp)
      · intro h2
        exact absurd h2 hb
    · intro h2
      exact absurd h2 (by simp)

/-- Claim C4, witness: the amended theorem applied to `gNegPair`, whose
Strategy A run reports a cycle. -/
theorem c4_witness :
    (ContainsNegativeCycles gNegPair 0).2.solved = false ∧
    (ContainsNegativeCycles gNegPair 0).2.prev 0 ≠ -2 := by
  refine ⟨(c4_verification_no_marking gNegPair 0).2.1 (by decide),
    (c4_verification_no_marking gNegPair 0).2.2 0⟩

/-- Claim C5: on any solved engine state, if `distance[finish]` equals
the `NEG_INF` sentinel then `ReconstructShortestPath` reports the
infinite-paths case and returns the empty sequence, never a concrete
finite path. -/
theorem c5_neg_inf_empty (g : Graph) (st : EngineState) (start finish : ℕ)
    (hsol : st.solved = true) (hd : st.dist finish = NEG_INF) :
    ReconstructShortestPath g st start finish = [] := by
  unfold ReconstructShortestPath
  rw [if_pos hsol, if_pos hd]

/-- Claim C5, witness: the theorem applied to a solved state whose only
distance is the sentinel. -/
theorem c5_witness : ReconstructShortestPath gSelf stNegInfW 0 0 = [] :=
  c5_neg_inf_empty gSelf stNegInfW 0 0 rfl rfl

/-- Claim C6: on any engine state that is not solved,
`ReconstructShortestPath` reports "not solved" and returns the empty
sequence without reading the arrays. -/
theorem c6_unsolved_empty (g : Graph) (st : EngineState) (start finish : ℕ)
    (h : st.solved = false) :
    ReconstructShortestPath g st start finish = [] := by
  unfold ReconstructShortestPath
  rw [h]
  simp

/-- Claim C6, witness: the theorem applied to a freshly constructed
instance. -/
theorem c6_witness : ReconstructShortestPath gSelf (initState 1) 0 0 = [] :=
  c6_unsolved_empty gSelf (initState 1) 0 0 rfl

/-- Claim C7, counterexample: after `FindPathsAndNegativeCycles` on
`gBig` (solved, no cycle reported, `distance[0] = -1000001 ≠ NEG_INF`,
but `previousVertex[0] = 1` because the huge negative edge relaxed the
source), `ReconstructShortestPath(g, 0, 0)` returns `[0, 0]`, not the
single-element sequence `[0]`. -/
theorem c7_counterexample :
    (FindPathsAndNegativeCycles gBig 0).1 = false ∧
    (FindPathsAndNegativeCycles gBig 0).2.solved = true ∧
    (FindPathsAndNegativeCycles gBig 0).2.dist 0 ≠ NEG_INF ∧
    ReconstructShortestPath gBig (FindPathsAndNegativeCycles gBig 0).2 0 0 = [0, 0] := by
  exact ⟨by decide, by decide, by decide, by decide⟩

/-- Claim C7 (amended): `ReconstructShortestPath g s s` returns the
single-element sequence `[s]` whenever the state is solved, `s` is not
cycle-contaminated, and additionally `previousVertex[s]` still holds the
unreached sentinel `-1` (which the counterexample shows can fail when a
negative walk into the source relaxed it). -/
theorem c7_self_path (g : Graph) (st : EngineState) (s : ℕ)
    (hsol : st.solved = true) (hnd : st.dist s ≠ NEG_INF) (hp : st.prev s = -1) :
    ReconstructShortestPath g st s s = [s] :=
  reconstruct_pred_none g st s s hsol hnd hp

/-- Claim C7, witness: the amended theorem on a solved state with
`distance[0] = 0` and an untouched predecessor. -/
theorem c7_witness : ReconstructShortestPath gSelf stSolved0 0 0 = [0] :=
  c7_self_path gSelf stSolved0 0 rfl (by decide) rfl

/-- Claim C8, counterexample: on `gUnreach` (no negative cycle; node 2
unreachable from source 0) Strategy A completes clean and solved, yet
`previousVertex[2] = 1` — Strategy A relaxed through the `INF` sentinel
of the non-existent edge `1 → 2` — and `ReconstructShortestPath`
returns the full sequence `[0, 1, 2]` ending at the unreachable
destination, instead of leaving the predecessor unreached. -/
theorem c8_counterexample :
    ¬ HasNegCycle gUnreach ∧
    ¬ Reaches gUnreach 0 2 ∧
    (ContainsNegativeCycles gUnreach 0).1 = false ∧
    (ContainsNegativeCycles gUnreach 0).2.solved = true ∧
    (ContainsNegativeCycles gUnreach 0).2.prev 2 = 1 ∧
    ReconstructShortestPath gUnreach (ContainsNegativeCycles gUnreach 0).2 0 2 = [0, 1, 2] := by
  refine ⟨noNegCycle_of_reducedCosts gUnreach (fun w => [0, -5, 0].getD w 0) (by decide),
    ?_, by decide, by decide, by decide, by decide⟩
  intro h
  rcases gUnreach_reach 2 h with h2 | h2 <;> exact absurd h2 (by decide)

/-- Claim C8 (amended): the guarantee holds for the guarded strategies B
and D (which skip non-existent edges and never relax from unreached
nodes): for every destination unreachable from the source,
`previousVertex` stays at the unreached sentinel `-1` and reconstruction
degenerates to the single-element sequence `[start]`; Strategies A and C
violate it (see the counterexample). -/
theorem c8_unreachable_guarded (g : Graph) (s v : ℕ) (hs : s < g.n)
    (hnr : ¬ Reaches g s v) :
    ((ContainsNegativeCycles_Sedgewick g s).2.prev v = -1 ∧
      ((ContainsNegativeCycles_Sedgewick g s).1 = false →
        ReconstructShortestPath g (ContainsNegativeCycles_Sedgewick g s).2 s v = [s])) ∧
    ((FindPathOnly g s).prev v = -1 ∧
      ReconstructShortestPath g (FindPathOnly g s) s v = [s]) := by
  have hvs : v ≠ s := fun h2 => hnr (h2 ▸ Relation.ReflTransGen.refl)
  constructor
  · obtain ⟨_, hinvB⟩ := loopB_inv g s g.n (startFrom (initState g.n) s) (ReachInv_start g s hs)
    obtain ⟨hpB, hdB⟩ := ReachInv_unreached g s v _ hinvB hnr hvs
    cases hb : (loopB g s g.n (startFrom (initState g.n) s)).2 with
    | true =>
      have hrun : ContainsNegativeCycles_Sedgewick g s =
          (true, (loopB g s g.n (startFrom (initState g.n) s)).1) := by
        simp only [ContainsNegativeCycles_Sedgewick, ContainsNegativeCycles_SedgewickRun, hb,
          if_true]
      rw [hrun]
      refine ⟨hpB, ?_⟩
      intro hflag
      simp at hflag
    | false =>
      have hrun : ContainsNegativeCycles_Sedgewick g s =
          (false, { (loopB g s g.n (startFrom (initState g.n) s)).1 with solved := true }) := by
        simp only [ContainsNegativeCycles_Sedgewick, ContainsNegativeCycles_SedgewickRun, hb]
        simp
      rw [hrun]
      refine ⟨hpB, fun _ => ?_⟩
      refine reconstruct_pred_none g _ s v rfl ?_ hpB
      have h3 : ({ (loopB g s g.n (startFrom (initState g.n) s)).1 with
          solved := true } : EngineState).dist v = INF := hdB
      rw [h3]
      decide
  · have hinvD : ReachInv g s (goD g (g.n + 2) [s] (startFrom (initState g.n) s)) := by
      refine goD_inv g s (g.n + 2) [s] _ (ReachInv_start g s hs) ?_
      intro u hu
      rcases List.mem_singleton.mp hu with rfl
      exact ⟨hs, Relation.ReflTransGen.refl⟩
    obtain ⟨hpD, hdD⟩ := ReachInv_unreached g s v _ hinvD hnr hvs
    have hrunD : FindPathOnly g s = goD g (g.n + 2) [s] (startFrom (initState g.n) s) := rfl
    rw [hrunD]
    refine ⟨hpD, reconstruct_pred_none g _ s v (goD_solved g _ _ _) ?_ hpD⟩
    rw [hdD]
    decide

/-- Claim C8, witness: the amended theorem on `gUnreach` with unreachable
destination 2. -/
theorem c8_witness :
    (ContainsNegativeCycles_Sedgewick gUnreach 0).2.prev 2 = -1 ∧
    ReconstructShortestPath gUnreach (ContainsNegativeCycles_Sedgewick gUnreach 0).2 0 2 = [0] ∧
    (FindPathOnly gUnreach 0).prev 2 = -1 ∧
    ReconstructShortestPath gUnreach (FindPathOnly gUnreach 0) 0 2 = [0] := by
  have hnr : ¬ Reaches gUnreach 0 2 := by
    intro h
    rcases gUnreach_reach 2 h with h2 | h2 <;> exact absurd h2 (by decide)
  obtain ⟨⟨h1, h2⟩, h3, h4⟩ := c8_unreachable_guarded gUnreach 0 2 (by decide) hnr
  exact ⟨h1, h2 (by decide), h3, h4⟩

/-- Claim C9, counterexample: re-running `ContainsNegativeCycles` on the
same instance (whose `resize` calls do not reinitialise the arrays) after
a run that detected the negative cycle of `gCyc3` produces a different
distance array: the first run ends with `distance[0] = -4`, the second
run continues relaxing from the stale arrays and ends with
`distance[0] = -6`. -/
theorem c9_counterexample :
    (ContainsNegativeCycles gCyc3 0).1 = true ∧
    (ContainsNegativeCycles gCyc3 0).2.dist 0 = -4 ∧
    (ContainsNegativeCyclesRun gCyc3 0 (ContainsNegativeCycles gCyc3 0).2).2.dist 0 = -6 := by
  exact ⟨by decide, by decide, by decide⟩

/-- Claim C9 (amended): a second run on the same instance resumes from
the prior arrays, so it reproduces them only when they are already stable
for the strategy's own relaxation rule and the source distance is still
0 — which is the situation after a completed cycle-free run.  Under those
hypotheses each of the four strategies returns the incoming arrays
unchanged (with the solved flag set). -/
theorem c9_rerun_stability (g : Graph) (s : ℕ) (st1 : EngineState)
    (hs : s < g.n) (h0 : st1.dist s = 0) :
    (FixA g st1 → ContainsNegativeCyclesRun g s st1 = (false, { st1 with solved := true })) ∧
    (FixB g s st1 →
      ContainsNegativeCycles_SedgewickRun g s st1 = (false, { st1 with solved := true })) ∧
    (FixC g st1 →
      FindPathsAndNegativeCyclesRun g s st1 = (false, { st1 with solved := true }) ∧
      FindPathOnlyRun g s st1 = { st1 with solved := true }) := by
  have hsf := startFrom_self st1 s h0
  refine ⟨?_, ?_, ?_⟩
  · intro hA
    simp only [ContainsNegativeCyclesRun, hsf,
      loopA_fix g st1 (passA_fix g st1 hA) (g.n - 1)]
    simp
  · intro hB
    simp only [ContainsNegativeCycles_SedgewickRun, hsf,
      loopB_fix g s st1 (passB_fix g s st1 hB) g.n]
    simp
  · intro hC
    constructor
    · simp only [FindPathsAndNegativeCyclesRun, hsf,
        iterC_fix g st1 (passC_fix g st1 hC) (g.n - 1),
        iterC2_fix g st1 hC false (g.n - 1)]
    · show goD g (g.n + 1 + 1) [s] (startFrom st1 s) = _
      rw [hsf]
      simp only [goD]
      have hpb : processBatch g [s] st1 = (st1, []) := by
        simp only [processBatch, processNode_fix g st1 s hs hC]
        simp
      rw [hpb]
      exact goD_nil g (g.n + 1) st1

/-- Claim C9, witness: the amended theorem on the one-node graph with its
stable solved state. -/
theorem c9_witness :
    ContainsNegativeCyclesRun gSelf 0 stSolved0 = (false, { stSolved0 with solved := true }) ∧
    ContainsNegativeCycles_SedgewickRun gSelf 0 stSolved0 =
      (false, { stSolved0 with solved := true }) ∧
    FindPathsAndNegativeCyclesRun gSelf 0 stSolved0 =
      (false, { stSolved0 with solved := true }) ∧
    FindPathOnlyRun gSelf 0 stSolved0 = { stSolved0 with solved := true } := by
  obtain ⟨h1, h2, h3⟩ := c9_rerun_stability gSelf 0 stSolved0 (by decide) (by decide)
  exact ⟨h1 (by decide), h2 (by decide), (h3 (by decide)).1, (h3 (by decide)).2⟩

/-- Claim C10: `FindPathOnly` always terminates through the round bound —
the sentinel is re-pushed on every pop, so the queue never drains, and
the embedding's structural fuel `n + 2` (the exact number of sentinel
pops the post-incremented `z > n` test allows) is always exhausted,
ending the run with the solved flag set to `true`, for every graph,
source, and incoming state. -/
theorem c10_round_bound_terminates (g : Graph) (start : ℕ) (st0 : EngineState) :
    (FindPathOnlyRun g start st0).solved = true :=
  goD_solved g (g.n + 2) [start] (startFrom st0 start)

end NegCycle
